import Mathlib

/-!
Verification of the claude-code hook reconciliation engine of
`rhachet-brains-anthropic`.

The development shallowly embeds the hook persistence layer:
the canonical `BrainHook` data model, the pure hook translator
(`translateHookToClaudeCode` / `translateHookFromClaudeCode`), the settings
store read model, and the reconciliation operations (`upsert`, `findsert`,
`del`) together with the query layer (`all`, `one`).

The vendor document (`.claude/settings.json`) is modelled structurally:
the `hooks` section is an insertion-ordered association list from vendor
event names to lists of grouping entries, mirroring how a parsed JSON
object behaves under `Object.entries`, spread, and computed-key updates;
unrelated top-level fields are carried in an opaque `rest` bag.
-/

/-- Canonical hook lifecycle events of the host framework (rhachet). -/
inductive BrainHookEvent
  | onBoot
  | onTool
  | onStop
deriving DecidableEq, Repr

/-- Optional secondary selector of a canonical hook (`filter`). -/
structure BrainHookFilter where
  what : String
deriving DecidableEq, Repr

/-- Durations as used by the hooks (`iso-time` IsoDuration values observed in
the source: `{ seconds: n }` or `{ milliseconds: n }`). -/
inductive IsoDuration
  | seconds (n : Nat)
  | milliseconds (n : Nat)
deriving DecidableEq, Repr

/-- The `toMilliseconds` conversion of the `iso-time` library, on the duration
shapes the source uses. -/
def toMilliseconds : IsoDuration → Nat
  | .seconds n => n * 1000
  | .milliseconds n => n

/-- Canonical hook record (`BrainHook` of rhachet): identity is
`(author, event, command)`; `filter` is mutable non-identity state. -/
structure BrainHook where
  author : String
  event : BrainHookEvent
  command : String
  timeout : IsoDuration
  filter : Option BrainHookFilter
deriving DecidableEq, Repr

/-- Vendor-hook record inside a grouping entry (`ClaudeCodeHook`):
`{ type, command, timeout?, author? }`. -/
structure ClaudeCodeHook where
  type : String
  command : String
  timeout : Option Nat
  author : Option String
deriving DecidableEq, Repr

/-- Grouping entry of the vendor document (`ClaudeCodeHookEntry`):
a `matcher` plus the vendor-hook records grouped under it. The optional
entry-level `author` exists in the declared interface but is not produced
by the reconciliation engine. -/
structure ClaudeCodeHookEntry where
  matcher : String
  hooks : List ClaudeCodeHook
  author : Option String
deriving DecidableEq, Repr

/-- The `hooks` section of the vendor document: a JSON object mapping vendor
event names to entry lists, modelled as an insertion-ordered association
list (JSON objects have unique keys; `Object.entries` iterates insertion
order). -/
abbrev HooksSection := List (String × List ClaudeCodeHookEntry)

/-- The vendor document (`ClaudeCodeSettings`): an optional `hooks` section
plus arbitrary unrelated top-level fields, carried opaquely in `rest`. -/
structure ClaudeCodeSettings where
  hooks : Option HooksSection
  rest : List (String × String)
deriving DecidableEq, Repr

/-- The empty document `{}` returned when no settings file exists. -/
def emptySettings : ClaudeCodeSettings :=
  { hooks := none, rest := [] }

/-- Event map of the adapter and translator: rhachet event to claude code
event name (`EVENT_MAP`). -/
def EVENT_MAP : BrainHookEvent → String
  | .onBoot => "SessionStart"
  | .onTool => "PreToolUse"
  | .onStop => "Stop"

/-- Reverse event map of the translator (`REVERSE_EVENT_MAP`): unknown vendor
event names (including `PostToolUse`) have no preimage. -/
def REVERSE_EVENT_MAP (event : String) : Option BrainHookEvent :=
  if event = "SessionStart" then some .onBoot
  else if event = "PreToolUse" then some .onTool
  else if event = "Stop" then some .onStop
  else none

/-- Matcher derived from a hook's filter: `hook.filter?.what ?? '*'`. -/
def matcherOfFilter : Option BrainHookFilter → String
  | some f => f.what
  | none => "*"

/-- Result shape of `translateHookToClaudeCode`. -/
structure TranslatedHook where
  event : String
  matcher : String
  hook : ClaudeCodeHook
deriving DecidableEq, Repr

/-- The whole-second timeout written to the vendor record:
`Math.round(toMilliseconds(hook.timeout) / 1000)`; on naturals, round half
up is `(ms + 500) / 1000` with floor division. -/
def timeoutSecondsOf (hook : BrainHook) : Nat :=
  (toMilliseconds hook.timeout + 500) / 1000

/-- Translator, canonical to vendor (`translateHookToClaudeCode`): a zero
rounded timeout is omitted from the record (JS spread of
`timeoutSeconds && { timeout: timeoutSeconds }`); `author` is carried
verbatim into the record. -/
def translateHookToClaudeCode (hook : BrainHook) : TranslatedHook :=
  let matcher := matcherOfFilter hook.filter
  let timeoutSeconds := timeoutSecondsOf hook
  { event := EVENT_MAP hook.event
    matcher := matcher
    hook :=
      { type := "command"
        command := hook.command
        timeout := if timeoutSeconds = 0 then none else some timeoutSeconds
        author := some hook.author } }

/-- Translator, vendor to canonical (`translateHookFromClaudeCode`):
unknown vendor event names yield `[]`; each record becomes one hook;
`author` defaults to `"unknown"`; a missing or zero stored timeout (JS
truthiness of `h.timeout`) falls back to 30 seconds; the wildcard matcher
yields no filter. -/
def translateHookFromClaudeCode (event : String) (entry : ClaudeCodeHookEntry) :
    List BrainHook :=
  match REVERSE_EVENT_MAP event with
  | none => []
  | some rhachetEvent =>
    entry.hooks.map fun h =>
      { author := h.author.getD "unknown"
        event := rhachetEvent
        command := h.command
        timeout :=
          match h.timeout with
          | some t => if t = 0 then .seconds 30 else .seconds t
          | none => .seconds 30
        filter :=
          if entry.matcher = "*" then none else some { what := entry.matcher } }

/-- First-key lookup in a JSON-object association list (`section[key]`). -/
def lookupKey {α : Type} : List (String × α) → String → Option α
  | [], _ => none
  | (k, v) :: rest, key => if k = key then some v else lookupKey rest key

/-- Computed-key update of a JSON object under spread
(`{...section, [key]: value}`): an existing key keeps its position with the
value replaced; a new key is appended at the end. -/
def setKey {α : Type} : List (String × α) → String → α → List (String × α)
  | [], key, value => [(key, value)]
  | (k, v) :: rest, key, value =>
    if k = key then (key, value) :: rest else (k, v) :: setKey rest key value

/-- Removal of the first record satisfying the predicate, mirroring the
source's `findIndex` followed by `splice(index, 1)`; a list with no match
is returned unchanged. -/
def spliceFirst (p : ClaudeCodeHook → Bool) : List ClaudeCodeHook → List ClaudeCodeHook
  | [] => []
  | h :: rest => if p h then rest else h :: spliceFirst p rest

/-- Unique-key match used by the engine: the record's `author` tag equals the
hook's author and the commands coincide (`h.author === author` on an
optional field, `h.command === command`). -/
def hookKeyMatch (author command : String) (h : ClaudeCodeHook) : Bool :=
  decide (h.author = some author) && decide (h.command = command)

/-- In-place replacement of the first record satisfying the predicate, or
append when none matches: the source's `findIndex` then
`hooks[index] = claudeHook` / `hooks.push(claudeHook)`. -/
def setFirstOrAppend (p : ClaudeCodeHook → Bool) (ch : ClaudeCodeHook) :
    List ClaudeCodeHook → List ClaudeCodeHook
  | [] => [ch]
  | h :: rest => if p h then ch :: rest else h :: setFirstOrAppend p ch rest

/-- Target-entry step of upsert: the first grouping entry whose matcher equals
the target matcher receives the record (replace in place, or append); when no
such entry exists a fresh single-record entry is appended to the event's
entry list. -/
def upsertIntoEntries (matcher : String) (ch : ClaudeCodeHook)
    (author command : String) : List ClaudeCodeHookEntry → List ClaudeCodeHookEntry
  | [] => [{ matcher := matcher, hooks := [ch], author := none }]
  | e :: rest =>
    if e.matcher = matcher then
      { e with hooks := setFirstOrAppend (hookKeyMatch author command) ch e.hooks } :: rest
    else
      e :: upsertIntoEntries matcher ch author command rest

/-- Grouping entries stored under one vendor event name
(`(settings.hooks ?? {})[eventName] ?? []`). -/
def entriesUnder (settings : ClaudeCodeSettings) (eventName : String) :
    List ClaudeCodeHookEntry :=
  (lookupKey (settings.hooks.getD []) eventName).getD []

/-- Orphan-cleanup step of upsert: every grouping entry whose matcher is not
the target matcher loses its first record matching the hook's
`(author, command)`; the target matcher's entries are skipped. -/
def cleanupOrphans (author command matcher : String)
    (entries : List ClaudeCodeHookEntry) : List ClaudeCodeHookEntry :=
  entries.map fun e =>
    if e.matcher = matcher then e
    else { e with hooks := spliceFirst (hookKeyMatch author command) e.hooks }

/-- The reconciliation engine's `upsert`, as a transformer of the persisted
document: read, translate, orphan cleanup, replace-or-append into the target
entry (created when absent), drop entries made empty, write the full
document back with only the target event key replaced. -/
def upsertSettings (hook : BrainHook) (settings : ClaudeCodeSettings) :
    ClaudeCodeSettings :=
  let t := translateHookToClaudeCode hook
  let hooksSection := settings.hooks.getD []
  let eventHooks := (lookupKey hooksSection t.event).getD []
  let cleaned := cleanupOrphans hook.author hook.command t.matcher eventHooks
  let afterTarget := upsertIntoEntries t.matcher t.hook hook.author hook.command cleaned
  let filtered := afterTarget.filter fun e => decide (e.hooks.length > 0)
  { settings with hooks := some (setKey hooksSection t.event filtered) }

namespace dao

/-- The adapter's `dao.set.upsert`: updates the persisted document and
returns the input hook. -/
def upsert (hook : BrainHook) (settings : ClaudeCodeSettings) :
    BrainHook × ClaudeCodeSettings :=
  (hook, upsertSettings hook settings)

/-- The adapter's `dao.set.findsert`: delegates to `upsert` and returns its
result. -/
def findsert (hook : BrainHook) (settings : ClaudeCodeSettings) :
    BrainHook × ClaudeCodeSettings :=
  upsert hook settings

/-- The adapter's `dao.del`, as a partial write: `some` carries the document
written back, `none` records that nothing changed and no write happened.
Every grouping entry under the mapped vendor event loses its first record
matching `(author, command)`; entries left empty are dropped; the document
is persisted only when some record was removed. -/
def del (author : String) (event : BrainHookEvent) (command : String)
    (settings : ClaudeCodeSettings) : Option ClaudeCodeSettings :=
  let claudeEvent := EVENT_MAP event
  let hooksSection := settings.hooks.getD []
  let eventHooks := (lookupKey hooksSection claudeEvent).getD []
  let didChange := eventHooks.any fun e => e.hooks.any (hookKeyMatch author command)
  let removed := eventHooks.map fun e =>
    { e with hooks := spliceFirst (hookKeyMatch author command) e.hooks }
  let filtered := removed.filter fun e => decide (e.hooks.length > 0)
  if didChange then
    some { settings with hooks := some (setKey hooksSection claudeEvent filtered) }
  else none

/-- On-disk state after `dao.del`: the written document when a write
happened, the prior document otherwise. -/
def delApply (author : String) (event : BrainHookEvent) (command : String)
    (settings : ClaudeCodeSettings) : ClaudeCodeSettings :=
  (del author event command settings).getD settings

/-- Canonical view derived by the query layer before filtering: every
grouping entry of every vendor event key present in the document is
reverse-translated and the results are flattened in document order. -/
def getAllHooks (settings : ClaudeCodeSettings) : List BrainHook :=
  ((settings.hooks.getD []).map fun p =>
    (p.2.map fun entry => translateHookFromClaudeCode p.1 entry).flatten).flatten

/-- Equality filters accepted by `dao.get.all` (the `query.by` object). -/
structure GetAllBy where
  author : Option String
  event : Option BrainHookEvent
  command : Option String
deriving DecidableEq, Repr

/-- The adapter's `dao.get.all`: derives the canonical view, then applies
the author, event and command equality filters in sequence. Each string
filter is applied only when its value is truthy (`if (query?.by?.author)`),
so a supplied empty string is skipped; the event value is an enum whose
string encodings are never empty, so presence alone decides it. The query
argument models the `query?.by` chain: `none` covers an absent query and an
absent `by` alike. -/
def all (query : Option GetAllBy) (settings : ClaudeCodeSettings) :
    List BrainHook :=
  let hooks := getAllHooks settings
  let r1 :=
    match query with
    | some q =>
      match q.author with
      | some a => if a = "" then hooks else hooks.filter fun h => decide (h.author = a)
      | none => hooks
    | none => hooks
  let r2 :=
    match query with
    | some q =>
      match q.event with
      | some ev => r1.filter fun h => decide (h.event = ev)
      | none => r1
    | none => r1
  match query with
  | some q =>
    match q.command with
    | some c => if c = "" then r2 else r2.filter fun h => decide (h.command = c)
    | none => r2
  | none => r2

/-- The adapter's `dao.get.one`: the first hook of the unfiltered `all`
whose `(author, event, command)` equals the given unique key, or `none`
(the source's `?? null`). -/
def one (author : String) (event : BrainHookEvent) (command : String)
    (settings : ClaudeCodeSettings) : Option BrainHook :=
  (all none settings).find? fun h =>
    decide (h.author = author) && decide (h.event = event) && decide (h.command = command)

end dao

/-- Outcome of probing the settings file at
`<repoPath>/.claude/settings.json`: the parent directory may be missing, the
file may be missing, the file may hold malformed JSON, or it parses to a
document. The filesystem and `JSON.parse` are modelled by their outcome. -/
inductive SettingsFileState
  | missingDir
  | missingFile
  | malformed
  | wellFormed (settings : ClaudeCodeSettings)

/-- Errors surfaced by the settings read. -/
inductive SettingsReadError
  | parseError
deriving DecidableEq, Repr

/-- The settings store's `readClaudeCodeSettings`: a failed existence probe
(`fs.access` throws for a missing parent directory and a missing file alike)
yields the empty document `{}`; an existing file is read and parsed, and a
`JSON.parse` failure propagates as a fatal parse error. -/
def readClaudeCodeSettings : SettingsFileState →
    Except SettingsReadError ClaudeCodeSettings
  | .missingDir => .ok emptySettings
  | .missingFile => .ok emptySettings
  | .malformed => .error .parseError
  | .wellFormed settings => .ok settings

/-- Hook with the given unique key and the given mutable state, used to
describe upsert sequences that keep `(author, event, command)` fixed while
the filter varies. -/
def mkHook (author : String) (event : BrainHookEvent) (command : String)
    (p : Option BrainHookFilter × IsoDuration) : BrainHook :=
  { author := author, event := event, command := command
    timeout := p.2, filter := p.1 }

/-- Sequence of upserts for one unique key, applied oldest first. -/
def upsertSeq (author : String) (event : BrainHookEvent) (command : String)
    (ps : List (Option BrainHookFilter × IsoDuration))
    (settings : ClaudeCodeSettings) : ClaudeCodeSettings :=
  ps.foldl (fun acc p => upsertSettings (mkHook author event command p) acc) settings

/-- Filter semantics the spec ascribes to `getAll`: a hook matches when every
supplied field equals the hook's value (AND semantics across supplied
fields). -/
def matchesBy (q : dao.GetAllBy) (h : BrainHook) : Bool :=
  (match q.author with
   | some a => decide (h.author = a)
   | none => true) &&
  ((match q.event with
    | some ev => decide (h.event = ev)
    | none => true) &&
  (match q.command with
   | some c => decide (h.command = c)
   | none => true))

/-- Vendor document holding one grouping entry with one record for a hook
key: the canonical shape reached by repeatedly upserting a single hook key
into the empty document, with `p` the most recent `(filter, timeout)`. -/
def singletonStateFor (author : String) (event : BrainHookEvent)
    (command : String) (p : Option BrainHookFilter × IsoDuration) :
    ClaudeCodeSettings :=
  { hooks := some [(EVENT_MAP event,
      [{ matcher := matcherOfFilter p.1,
         hooks := [(translateHookToClaudeCode (mkHook author event command p)).hook],
         author := none }])]
    rest := [] }

/-! ### Association-list and record-list lemmas -/

theorem lookupKey_setKey_self {α : Type} (m : List (String × α)) (k : String)
    (v : α) : lookupKey (setKey m k v) k = some v := by
  induction m with
  | nil => simp [setKey, lookupKey]
  | cons p rest ih =>
    obtain ⟨pk, pv⟩ := p
    by_cases h : pk = k <;> simp [setKey, lookupKey, h, ih]

theorem lookupKey_setKey_ne {α : Type} (m : List (String × α)) (k k' : String)
    (v : α) (h : k' ≠ k) : lookupKey (setKey m k v) k' = lookupKey m k' := by
  have hk : ¬k = k' := fun he => h he.symm
  induction m with
  | nil => simp [setKey, lookupKey, hk]
  | cons p rest ih =>
    obtain ⟨pk, pv⟩ := p
    by_cases h1 : pk = k
    · subst h1
      simp [setKey, lookupKey, hk]
    · by_cases h2 : pk = k' <;> simp [setKey, lookupKey, h1, h2, h, ih]

theorem setKey_setKey {α : Type} (m : List (String × α)) (k : String)
    (v w : α) : setKey (setKey m k v) k w = setKey m k w := by
  induction m with
  | nil => simp [setKey]
  | cons p rest ih =>
    obtain ⟨pk, pv⟩ := p
    by_cases h : pk = k <;> simp [setKey, h, ih]

theorem countP_spliceFirst (p : ClaudeCodeHook → Bool) (l : List ClaudeCodeHook) :
    (spliceFirst p l).countP p = l.countP p - 1 := by
  induction l with
  | nil => simp [spliceFirst]
  | cons h t ih =>
    by_cases hp : p h
    · simp [spliceFirst, hp, List.countP_cons_of_pos]
    · simp [spliceFirst, hp, List.countP_cons_of_neg, ih]

theorem spliceFirst_eq_of_countP_eq_zero (p : ClaudeCodeHook → Bool)
    (l : List ClaudeCodeHook) (h : l.countP p = 0) : spliceFirst p l = l := by
  induction l with
  | nil => rfl
  | cons x t ih =>
    have hx : ¬p x := by
      intro hpx
      have := List.countP_eq_zero.mp h x (by simp)
      exact this hpx
    have ht : t.countP p = 0 := by
      have := h
      rw [List.countP_cons_of_neg _ _ hx] at this
      exact this
    simp [spliceFirst, hx, ih ht]

theorem setFirstOrAppend_ne_nil (p : ClaudeCodeHook → Bool) (ch : ClaudeCodeHook)
    (l : List ClaudeCodeHook) : setFirstOrAppend p ch l ≠ [] := by
  cases l with
  | nil => simp [setFirstOrAppend]
  | cons h t => by_cases hp : p h <;> simp [setFirstOrAppend, hp]

theorem setFirstOrAppend_idem (p : ClaudeCodeHook → Bool) (ch : ClaudeCodeHook)
    (hp : p ch = true) (l : List ClaudeCodeHook) :
    setFirstOrAppend p ch (setFirstOrAppend p ch l) = setFirstOrAppend p ch l := by
  induction l with
  | nil => simp [setFirstOrAppend, hp]
  | cons h t ih =>
    by_cases hph : p h
    · simp [setFirstOrAppend, hph, hp]
    · simp [setFirstOrAppend, hph, ih]

theorem find?_eq_head?_filter {α : Type} (p : α → Bool) (l : List α) :
    l.find? p = (l.filter p).head? := by
  induction l with
  | nil => rfl
  | cons h t ih =>
    by_cases hp : p h
    · rw [List.find?_cons_of_pos _ hp, List.filter_cons_of_pos hp]
      rfl
    · rw [List.find?_cons_of_neg _ (by simpa using hp),
        List.filter_cons_of_neg (by simpa using hp), ih]

theorem filter_filter_comp {α : Type} (p q : α → Bool) (l : List α) :
    (l.filter p).filter q = l.filter fun a => p a && q a := by
  induction l with
  | nil => rfl
  | cons h t ih =>
    by_cases hp : p h <;> by_cases hq : q h <;>
      simp [List.filter_cons, hp, hq, ih]

theorem filter_idem {α : Type} (p : α → Bool) (l : List α) :
    (l.filter p).filter p = l.filter p := by
  rw [filter_filter_comp]
  simp

theorem hookKeyMatch_translate (hook : BrainHook) :
    hookKeyMatch hook.author hook.command (translateHookToClaudeCode hook).hook
      = true := by
  simp [hookKeyMatch, translateHookToClaudeCode]

theorem REVERSE_EVENT_MAP_EVENT_MAP (event : BrainHookEvent) :
    REVERSE_EVENT_MAP (EVENT_MAP event) = some event := by
  cases event <;> rfl

theorem mem_upsertIntoEntries_of_ne_matcher (matcher : String)
    (ch : ClaudeCodeHook) (author command : String)
    (l : List ClaudeCodeHookEntry) (e : ClaudeCodeHookEntry)
    (he : e ∈ upsertIntoEntries matcher ch author command l)
    (hm : e.matcher ≠ matcher) : e ∈ l := by
  induction l with
  | nil =>
    simp [upsertIntoEntries] at he
    rw [he] at hm
    simp at hm
  | cons x t ih =>
    by_cases hx : x.matcher = matcher
    · rw [upsertIntoEntries, if_pos hx] at he
      rcases List.mem_cons.mp he with h1 | h1
      · rw [h1] at hm
        exact absurd hx hm
      · exact List.mem_cons_of_mem _ h1
    · rw [upsertIntoEntries, if_neg hx] at he
      rcases List.mem_cons.mp he with h1 | h1
      · exact h1 ▸ List.mem_cons_self _ _
      · exact List.mem_cons_of_mem _ (ih h1)

theorem countP_cleanupOrphans_of_ne_matcher (author command matcher : String)
    (l : List ClaudeCodeHookEntry)
    (hcount : ∀ e ∈ l, e.matcher ≠ matcher →
      e.hooks.countP (hookKeyMatch author command) ≤ 1)
    (e : ClaudeCodeHookEntry) (he : e ∈ cleanupOrphans author command matcher l)
    (hm : e.matcher ≠ matcher) :
    e.hooks.countP (hookKeyMatch author command) = 0 := by
  induction l with
  | nil => simp [cleanupOrphans] at he
  | cons x t ih =>
    rw [cleanupOrphans, List.map_cons] at he
    rcases List.mem_cons.mp he with h1 | h1
    · by_cases hx : x.matcher = matcher
      · rw [if_pos hx] at h1
        rw [h1] at hm
        exact absurd hx hm
      · rw [if_neg hx] at h1
        have hle := hcount x (List.mem_cons_self _ _) hx
        rw [h1]
        simp only [countP_spliceFirst]
        omega
    · exact ih (fun e' he' => hcount e' (List.mem_cons_of_mem _ he')) h1

theorem cleanupOrphans_eq_of_clean (author command matcher : String)
    (l : List ClaudeCodeHookEntry)
    (h : ∀ e ∈ l, e.matcher ≠ matcher →
      e.hooks.countP (hookKeyMatch author command) = 0) :
    cleanupOrphans author command matcher l = l := by
  induction l with
  | nil => rfl
  | cons x t ih =>
    rw [cleanupOrphans, List.map_cons]
    have ht : cleanupOrphans author command matcher t = t :=
      ih fun e' he' => h e' (List.mem_cons_of_mem _ he')
    rw [cleanupOrphans] at ht
    rw [ht]
    by_cases hx : x.matcher = matcher
    · rw [if_pos hx]
    · rw [if_neg hx,
        spliceFirst_eq_of_countP_eq_zero _ _ (h x (List.mem_cons_self _ _) hx)]

theorem upsertIntoEntries_filter_collapse (matcher : String)
    (ch : ClaudeCodeHook) (author command : String)
    (hp : hookKeyMatch author command ch = true)
    (l : List ClaudeCodeHookEntry) :
    (upsertIntoEntries matcher ch author command
        ((upsertIntoEntries matcher ch author command l).filter
          fun e => decide (e.hooks.length > 0))).filter
        (fun e => decide (e.hooks.length > 0))
      = (upsertIntoEntries matcher ch author command l).filter
          fun e => decide (e.hooks.length > 0) := by
  induction l with
  | nil =>
    simp [upsertIntoEntries, setFirstOrAppend, hp, List.filter_cons]
  | cons x t ih =>
    by_cases hx : x.matcher = matcher
    · rw [upsertIntoEntries, if_pos hx]
      have hne : (setFirstOrAppend (hookKeyMatch author command) ch x.hooks).length > 0 :=
        List.length_pos.mpr (setFirstOrAppend_ne_nil _ _ _)
      rw [List.filter_cons_of_pos (by simpa using hne)]
      rw [upsertIntoEntries, if_pos hx]
      simp only [setFirstOrAppend_idem _ _ hp]
      rw [List.filter_cons_of_pos (by simpa using hne)]
      rw [filter_idem]
    · rw [upsertIntoEntries, if_neg hx]
      by_cases hne : x.hooks.length > 0
      · rw [List.filter_cons_of_pos (by simpa using hne)]
        rw [upsertIntoEntries, if_neg hx]
        rw [List.filter_cons_of_pos (by simpa using hne)]
        rw [ih]
      · rw [List.filter_cons_of_neg (by simpa using hne)]
        exact ih

theorem upsert_mkHook_empty (author : String) (event : BrainHookEvent)
    (command : String) (p : Option BrainHookFilter × IsoDuration) :
    upsertSettings (mkHook author event command p) emptySettings
      = singletonStateFor author event command p := rfl

theorem upsert_mkHook_step (author : String) (event : BrainHookEvent)
    (command : String) (p q : Option BrainHookFilter × IsoDuration) :
    upsertSettings (mkHook author event command q)
        (singletonStateFor author event command p)
      = singletonStateFor author event command q := by
  by_cases hm : matcherOfFilter p.1 = matcherOfFilter q.1 <;>
    simp [upsertSettings, singletonStateFor, mkHook, translateHookToClaudeCode,
      lookupKey, setKey, cleanupOrphans, upsertIntoEntries, spliceFirst,
      setFirstOrAppend, hookKeyMatch, hm, List.filter_cons]

theorem upsertSeq_singletonStateFor (author : String) (event : BrainHookEvent)
    (command : String) (ps : List (Option BrainHookFilter × IsoDuration)) :
    ∀ p, upsertSeq author event command ps
        (singletonStateFor author event command p)
      = singletonStateFor author event command (ps.getLastD p) := by
  induction ps with
  | nil => intro p; rfl
  | cons q t ih =>
    intro p
    show upsertSeq author event command t
        (upsertSettings (mkHook author event command q)
          (singletonStateFor author event command p))
      = _
    rw [upsert_mkHook_step, ih, List.getLastD_cons]

theorem upsertSeq_cons_empty (author : String) (event : BrainHookEvent)
    (command : String) (p₀ : Option BrainHookFilter × IsoDuration)
    (ps : List (Option BrainHookFilter × IsoDuration)) :
    upsertSeq author event command (p₀ :: ps) emptySettings
      = singletonStateFor author event command (ps.getLastD p₀) := by
  show upsertSeq author event command ps
      (upsertSettings (mkHook author event command p₀) emptySettings) = _
  rw [upsert_mkHook_empty, upsertSeq_singletonStateFor]

/-! ### Claims -/

/-- C10: `findsert` is equivalent to `upsert` — for every hook and every
starting document, `findsert` produces the same persisted document as
`upsert` and returns the same hook value, since the source delegates
directly. -/
theorem claim10_findsert_equiv_upsert (hook : BrainHook)
    (settings : ClaudeCodeSettings) :
    dao.findsert hook settings = dao.upsert hook settings := rfl

/-- C8: the settings read returns the empty document when the parent
directory or the file is missing, and propagates a fatal parse error when
the file exists but holds malformed JSON. -/
theorem claim8_read_contract :
    readClaudeCodeSettings .missingDir = .ok emptySettings ∧
    readClaudeCodeSettings .missingFile = .ok emptySettings ∧
    readClaudeCodeSettings .malformed = .error .parseError :=
  ⟨rfl, rfl, rfl⟩

/-- C5: upsert and delete leave the unrelated top-level fields of the
document unchanged in the persisted document. -/
theorem claim5_frame_unrelated_fields (hook : BrainHook) (author : String)
    (event : BrainHookEvent) (command : String)
    (settings : ClaudeCodeSettings) :
    (dao.upsert hook settings).2.rest = settings.rest ∧
    (dao.delApply author event command settings).rest = settings.rest := by
  refine ⟨rfl, ?_⟩
  simp only [dao.delApply, dao.del]
  split <;> rfl

/-- C6: when no record under the mapped vendor event matches
`(author, command)`, delete returns successfully without a write and the
on-disk document is unchanged. -/
theorem claim6_del_noop (author : String) (event : BrainHookEvent)
    (command : String) (settings : ClaudeCodeSettings)
    (h : ∀ e ∈ entriesUnder settings (EVENT_MAP event), ∀ r ∈ e.hooks,
      hookKeyMatch author command r = false) :
    dao.del author event command settings = none ∧
    dao.delApply author event command settings = settings := by
  have hdc : ((lookupKey (settings.hooks.getD []) (EVENT_MAP event)).getD
      []).any (fun e => e.hooks.any (hookKeyMatch author command)) = false := by
    rw [List.any_eq_false]
    intro e he
    rw [Bool.not_eq_true, List.any_eq_false]
    intro r hr
    simp [h e he r hr]
  have h1 : dao.del author event command settings = none := by
    simp [dao.del, hdc]
  exact ⟨h1, by simp [dao.delApply, h1]⟩

/-- C6 witness: delete of a hook absent from a concrete document is a
no-op returning successfully. -/
theorem claim6_del_noop_witness :
    dao.del "a" .onBoot "zzz"
        ⟨some [("PreToolUse",
          [⟨"Write", [⟨"command", "c", none, some "a"⟩], none⟩])], []⟩ = none ∧
    dao.delApply "a" .onBoot "zzz"
        ⟨some [("PreToolUse",
          [⟨"Write", [⟨"command", "c", none, some "a"⟩], none⟩])], []⟩ =
      ⟨some [("PreToolUse",
        [⟨"Write", [⟨"command", "c", none, some "a"⟩], none⟩])], []⟩ :=
  claim6_del_noop "a" .onBoot "zzz" _ (by decide)

/-- C2 counterexample: upsert is not idempotent on every starting document.
On a document whose `SessionStart` section holds one grouping entry
containing the same `(author, command)` record twice, the orphan cleanup of
each upsert removes only the first copy, so the second application still
changes the document. -/
theorem claim2_counterexample :
    (dao.upsert ⟨"a", .onBoot, "c", .seconds 30, none⟩
        (dao.upsert ⟨"a", .onBoot, "c", .seconds 30, none⟩
          ⟨some [("SessionStart",
            [⟨"A", [⟨"command", "c", none, some "a"⟩,
                    ⟨"command", "c", none, some "a"⟩], none⟩])], []⟩).2).2 ≠
      (dao.upsert ⟨"a", .onBoot, "c", .seconds 30, none⟩
        ⟨some [("SessionStart",
          [⟨"A", [⟨"command", "c", none, some "a"⟩,
                  ⟨"command", "c", none, some "a"⟩], none⟩])], []⟩).2 := by
  decide

/-- C4 counterexample: delete does not remove every matching record from
every grouping entry — it removes only the first match per entry. On a
document where one entry holds the same `(author, command)` record twice, a
matching record survives the delete. -/
theorem claim4_counterexample :
    (entriesUnder (dao.delApply "a" .onTool "c"
        ⟨some [("PreToolUse",
          [⟨"Write", [⟨"command", "c", none, some "a"⟩,
                      ⟨"command", "c", none, some "a"⟩], none⟩,
           ⟨"Edit", [⟨"command", "c", none, some "a"⟩], none⟩])], []⟩)
      "PreToolUse").any
      (fun e => e.hooks.any (hookKeyMatch "a" "c")) = true := by
  decide

/-- C3 counterexample: when a hook's timeout rounds to zero whole seconds,
the vendor record omits the timeout and the reverse translation restores
the 30-second fallback, not the normalized zero — so the round trip does
not reproduce the normalized timeout in that case. -/
theorem claim3_counterexample :
    translateHookFromClaudeCode
        (translateHookToClaudeCode ⟨"a", .onBoot, "c", .milliseconds 400, none⟩).event
        ⟨(translateHookToClaudeCode ⟨"a", .onBoot, "c", .milliseconds 400, none⟩).matcher,
         [(translateHookToClaudeCode ⟨"a", .onBoot, "c", .milliseconds 400, none⟩).hook],
         none⟩ ≠
      [{ author := "a", event := .onBoot, command := "c",
         timeout := .seconds
           (timeoutSecondsOf ⟨"a", .onBoot, "c", .milliseconds 400, none⟩),
         filter := none }] := by
  decide

/-- C7 counterexample: supplying an empty-string author filter is skipped by
the query layer (JS truthiness), so the result is not the set of hooks whose
author equals the supplied value. -/
theorem claim7_counterexample :
    dao.all (some ⟨some "", none, none⟩)
        ⟨some [("SessionStart",
          [⟨"*", [⟨"command", "c", none, some "x"⟩], none⟩])], []⟩ ≠
      (dao.getAllHooks
        ⟨some [("SessionStart",
          [⟨"*", [⟨"command", "c", none, some "x"⟩], none⟩])], []⟩).filter
        (matchesBy ⟨some "", none, none⟩) := by
  decide

/-- C9: vendor event names outside the three managed names (such as
`PostToolUse`) are preserved by upsert and delete — their section in the
hooks object is untouched — and contribute no canonical hooks, because
reverse translation of an unmanaged vendor event name yields the empty
list rather than an error. -/
theorem claim9_unmanaged_events_preserved (k : String)
    (hk1 : k ≠ "SessionStart") (hk2 : k ≠ "PreToolUse") (hk3 : k ≠ "Stop")
    (hook : BrainHook) (author : String) (event : BrainHookEvent)
    (command : String) (settings : ClaudeCodeSettings)
    (entry : ClaudeCodeHookEntry) :
    lookupKey ((dao.upsert hook settings).2.hooks.getD []) k
      = lookupKey (settings.hooks.getD []) k ∧
    lookupKey ((dao.delApply author event command settings).hooks.getD []) k
      = lookupKey (settings.hooks.getD []) k ∧
    translateHookFromClaudeCode k entry = [] := by
  have hev : ∀ ev : BrainHookEvent, k ≠ EVENT_MAP ev := by
    intro ev
    cases ev
    exacts [hk1, hk2, hk3]
  refine ⟨?_, ?_, ?_⟩
  · simp only [dao.upsert, upsertSettings, translateHookToClaudeCode,
      Option.getD_some]
    exact lookupKey_setKey_ne _ _ _ _ (hev hook.event)
  · cases hdel : dao.del author event command settings with
    | none => simp [dao.delApply, hdel]
    | some s' =>
      have happ : dao.delApply author event command settings = s' := by
        simp [dao.delApply, hdel]
      rw [happ]
      simp only [dao.del] at hdel
      split at hdel
      · injection hdel with h2
        subst h2
        simp only [Option.getD_some]
        exact lookupKey_setKey_ne _ _ _ _ (hev event)
      · simp at hdel
  · simp [translateHookFromClaudeCode, REVERSE_EVENT_MAP, hk1, hk2, hk3]

/-- C9 witness: on a concrete document carrying a `PostToolUse` section,
upsert and delete preserve that section and reverse translation of a
`PostToolUse` entry is empty. -/
theorem claim9_unmanaged_events_preserved_witness :
    lookupKey ((dao.upsert ⟨"a", .onBoot, "c", .seconds 30, none⟩
        ⟨some [("PostToolUse",
          [⟨"*", [⟨"command", "x", none, none⟩], none⟩])], []⟩).2.hooks.getD [])
        "PostToolUse"
      = lookupKey ((⟨some [("PostToolUse",
          [⟨"*", [⟨"command", "x", none, none⟩], none⟩])],
          []⟩ : ClaudeCodeSettings).hooks.getD []) "PostToolUse" ∧
    lookupKey ((dao.delApply "a" .onBoot "c"
        ⟨some [("PostToolUse",
          [⟨"*", [⟨"command", "x", none, none⟩], none⟩])], []⟩).hooks.getD [])
        "PostToolUse"
      = lookupKey ((⟨some [("PostToolUse",
          [⟨"*", [⟨"command", "x", none, none⟩], none⟩])],
          []⟩ : ClaudeCodeSettings).hooks.getD []) "PostToolUse" ∧
    translateHookFromClaudeCode "PostToolUse"
        ⟨"*", [⟨"command", "x", none, none⟩], none⟩ = [] :=
  claim9_unmanaged_events_preserved "PostToolUse" (by decide) (by decide)
    (by decide) ⟨"a", .onBoot, "c", .seconds 30, none⟩ "a" .onBoot "c" _ _

/-- C1 counterexample: the claim fails on inputs it quantifies over when the
most recent filter is the reserved wildcard selector `{what := "*"}`. After
upserting a hook with that filter into the empty document, `getAll`
(filtered to the key) returns exactly one hook, but its filter is absent
(`none`), not the latest value `some ⟨"*"⟩` — the translator encodes the
wildcard matcher as "no filter", so the latest filter value is not
reflected. -/
theorem claim1_counterexample :
    (((dao.all none (upsertSeq "a" .onTool "c"
        [(some ⟨"*"⟩, IsoDuration.seconds 30)] emptySettings)).filter fun h =>
        decide (h.author = "a") && decide (h.event = .onTool) &&
          decide (h.command = "c")).length = 1) ∧
    ¬ (∀ h' ∈ (dao.all none (upsertSeq "a" .onTool "c"
        [(some ⟨"*"⟩, IsoDuration.seconds 30)] emptySettings)).filter fun h =>
        decide (h.author = "a") && decide (h.event = .onTool) &&
          decide (h.command = "c"),
      h'.filter = some ⟨"*"⟩) := by
  decide

/-- C1 (amended): starting from the empty document, after any nonempty
sequence of upserts for a fixed `(author, event, command)` key with varying
filter values (and timeouts), the vendor document contains exactly one
record with that `(author, command)` under the event's vendor name, every
entry holding a matching record carries the matcher derived from the most
recent filter, and the unfiltered `getAll` contains exactly one hook with
that key; that hook's filter is the most recent value whenever the derived
matcher is not the wildcard `*`, while a most recent filter of
`{what := "*"}` coincides with the wildcard matcher and is reported as an
absent filter (see the counterexample). -/
theorem claim1_upsert_unique_representation (author : String)
    (event : BrainHookEvent) (command : String)
    (p₀ : Option BrainHookFilter × IsoDuration)
    (ps : List (Option BrainHookFilter × IsoDuration))
    (s : ClaudeCodeSettings)
    (hs : s = upsertSeq author event command (p₀ :: ps) emptySettings) :
    (((entriesUnder s (EVENT_MAP event)).map
        fun e => e.hooks.countP (hookKeyMatch author command)).sum = 1) ∧
    (∀ e ∈ entriesUnder s (EVENT_MAP event),
      (∃ r ∈ e.hooks, hookKeyMatch author command r = true) →
      e.matcher = matcherOfFilter (ps.getLastD p₀).1) ∧
    (((dao.all none s).filter fun h =>
        decide (h.author = author) && decide (h.event = event) &&
          decide (h.command = command)).length = 1) ∧
    (∀ h' ∈ (dao.all none s).filter fun h =>
        decide (h.author = author) && decide (h.event = event) &&
          decide (h.command = command),
      h'.filter = if matcherOfFilter (ps.getLastD p₀).1 = "*" then none
        else some ⟨matcherOfFilter (ps.getLastD p₀).1⟩) := by
  subst hs
  rw [upsertSeq_cons_empty]
  set p := ps.getLastD p₀ with hpdef
  have hchp : hookKeyMatch author command
      (translateHookToClaudeCode (mkHook author event command p)).hook = true := by
    simpa [mkHook] using hookKeyMatch_translate (mkHook author event command p)
  have hent : entriesUnder (singletonStateFor author event command p)
      (EVENT_MAP event)
      = [⟨matcherOfFilter p.1,
          [(translateHookToClaudeCode (mkHook author event command p)).hook],
          none⟩] := by
    simp [entriesUnder, singletonStateFor, lookupKey]
  have hall : dao.all none (singletonStateFor author event command p)
      = translateHookFromClaudeCode (EVENT_MAP event)
          ⟨matcherOfFilter p.1,
           [(translateHookToClaudeCode (mkHook author event command p)).hook],
           none⟩ := by
    simp [dao.all, dao.getAllHooks, singletonStateFor]
  refine ⟨?_, ?_, ?_, ?_⟩
  · rw [hent]
    simp [hchp]
  · rw [hent]
    intro e he hr
    rw [List.mem_singleton] at he
    rw [he]
  · rw [hall]
    simp [translateHookFromClaudeCode, REVERSE_EVENT_MAP_EVENT_MAP,
      translateHookToClaudeCode, mkHook, List.filter_cons]
  · rw [hall]
    intro h' hmem
    simp only [translateHookFromClaudeCode, REVERSE_EVENT_MAP_EVENT_MAP,
      translateHookToClaudeCode, mkHook, List.map_cons, List.map_nil] at hmem
    rw [List.mem_filter] at hmem
    rw [List.mem_singleton] at hmem
    rcases hmem with ⟨hmem, -⟩
    rw [hmem]

/-- C1 witness: upserting one key first with filter `Write`, then with
filter `Write|Edit`, starting from the empty document, leaves exactly one
matching record, under the `Write|Edit` matcher, and `getAll` holds exactly
one hook with that key whose filter is the latest value. -/
theorem claim1_upsert_unique_representation_witness :
    (((entriesUnder
        (upsertSeq "a" .onTool "c"
          ((some ⟨"Write"⟩, .seconds 30) ::
            [(some ⟨"Write|Edit"⟩, .seconds 30)]) emptySettings)
        (EVENT_MAP .onTool)).map
        fun e => e.hooks.countP (hookKeyMatch "a" "c")).sum = 1) ∧
    (∀ e ∈ entriesUnder
        (upsertSeq "a" .onTool "c"
          ((some ⟨"Write"⟩, .seconds 30) ::
            [(some ⟨"Write|Edit"⟩, .seconds 30)]) emptySettings)
        (EVENT_MAP .onTool),
      (∃ r ∈ e.hooks, hookKeyMatch "a" "c" r = true) →
      e.matcher = matcherOfFilter
        ([((some ⟨"Write|Edit"⟩ : Option BrainHookFilter), IsoDuration.seconds 30)].getLastD
          (some ⟨"Write"⟩, .seconds 30)).1) ∧
    (((dao.all none
        (upsertSeq "a" .onTool "c"
          ((some ⟨"Write"⟩, .seconds 30) ::
            [(some ⟨"Write|Edit"⟩, .seconds 30)]) emptySettings)).filter
        fun h =>
          decide (h.author = "a") && decide (h.event = .onTool) &&
            decide (h.command = "c")).length = 1) ∧
    (∀ h' ∈ (dao.all none
        (upsertSeq "a" .onTool "c"
          ((some ⟨"Write"⟩, .seconds 30) ::
            [(some ⟨"Write|Edit"⟩, .seconds 30)]) emptySettings)).filter
        fun h =>
          decide (h.author = "a") && decide (h.event = .onTool) &&
            decide (h.command = "c"),
      h'.filter = if matcherOfFilter
          ([((some ⟨"Write|Edit"⟩ : Option BrainHookFilter), IsoDuration.seconds 30)].getLastD
            (some ⟨"Write"⟩, .seconds 30)).1 = "*" then none
        else some ⟨matcherOfFilter
          ([((some ⟨"Write|Edit"⟩ : Option BrainHookFilter), IsoDuration.seconds 30)].getLastD
            (some ⟨"Write"⟩, .seconds 30)).1⟩) :=
  claim1_upsert_unique_representation "a" .onTool "c"
    (some ⟨"Write"⟩, .seconds 30) [(some ⟨"Write|Edit"⟩, .seconds 30)] _ rfl

/-- C2 (amended): upsert is idempotent on every starting document in which
each grouping entry under the hook's vendor event whose matcher differs
from the hook's target matcher contains at most one record matching the
hook's `(author, command)` — in particular on every document the engine
itself produces. (The unamended claim fails when such an entry holds the
matching record more than once, since orphan cleanup removes only the
first copy per upsert; see the counterexample.) -/
theorem claim2_upsert_idempotent_amended (hook : BrainHook)
    (settings : ClaudeCodeSettings)
    (hcount : ∀ e ∈ entriesUnder settings (EVENT_MAP hook.event),
      e.matcher ≠ (translateHookToClaudeCode hook).matcher →
      e.hooks.countP (hookKeyMatch hook.author hook.command) ≤ 1) :
    (dao.upsert hook (dao.upsert hook settings).2).2
      = (dao.upsert hook settings).2 := by
  have hp : hookKeyMatch hook.author hook.command
      (translateHookToClaudeCode hook).hook = true :=
    hookKeyMatch_translate hook
  set t := translateHookToClaudeCode hook with ht
  set sec := settings.hooks.getD [] with hsec
  set l := (lookupKey sec t.event).getD [] with hl
  set F1 := (upsertIntoEntries t.matcher t.hook hook.author hook.command
      (cleanupOrphans hook.author hook.command t.matcher l)).filter
      (fun e => decide (e.hooks.length > 0)) with hF1
  have h1 : (dao.upsert hook settings).2
      = { settings with hooks := some (setKey sec t.event F1) } := rfl
  have hclean : ∀ e ∈ F1, e.matcher ≠ t.matcher →
      e.hooks.countP (hookKeyMatch hook.author hook.command) = 0 := by
    intro e he hm
    have he1 : e ∈ upsertIntoEntries t.matcher t.hook hook.author hook.command
        (cleanupOrphans hook.author hook.command t.matcher l) :=
      (List.mem_filter.mp (hF1 ▸ he)).1
    have he2 := mem_upsertIntoEntries_of_ne_matcher _ _ _ _ _ _ he1 hm
    exact countP_cleanupOrphans_of_ne_matcher _ _ _ _ hcount _ he2 hm
  rw [h1]
  have h2 : (dao.upsert hook { settings with hooks := some (setKey sec t.event F1) }).2
      = { settings with hooks := some (setKey (setKey sec t.event F1) t.event
          ((upsertIntoEntries t.matcher t.hook hook.author hook.command
            (cleanupOrphans hook.author hook.command t.matcher
              ((lookupKey (setKey sec t.event F1) t.event).getD []))).filter
            (fun e => decide (e.hooks.length > 0)))) } := rfl
  rw [h2, lookupKey_setKey_self, Option.getD_some,
    cleanupOrphans_eq_of_clean _ _ _ _ hclean, setKey_setKey, hF1,
    upsertIntoEntries_filter_collapse _ _ _ _ hp]

/-- C2 witness: upserting a concrete hook twice into a document holding a
single orphaned copy of it under another matcher gives the same document as
upserting once. -/
theorem claim2_upsert_idempotent_amended_witness :
    (dao.upsert ⟨"a", .onTool, "c", .seconds 5, some ⟨"Write"⟩⟩
        (dao.upsert ⟨"a", .onTool, "c", .seconds 5, some ⟨"Write"⟩⟩
          ⟨some [("PreToolUse",
            [⟨"Edit", [⟨"command", "c", none, some "a"⟩], none⟩])], []⟩).2).2
      = (dao.upsert ⟨"a", .onTool, "c", .seconds 5, some ⟨"Write"⟩⟩
          ⟨some [("PreToolUse",
            [⟨"Edit", [⟨"command", "c", none, some "a"⟩], none⟩])], []⟩).2 :=
  claim2_upsert_idempotent_amended ⟨"a", .onTool, "c", .seconds 5, some ⟨"Write"⟩⟩
    _ (by decide)

/-- C4 (amended): when at least one grouping entry under the mapped vendor
event contains a record matching `(author, command)` and every such entry
contains at most one matching record, delete removes the match from every
grouping entry across all matchers, performs the write, and leaves no
empty grouping entry in the persisted document. (The unamended claim fails
when one entry holds the matching record more than once, since only the
first copy per entry is removed; see the counterexample.) -/
theorem claim4_del_cross_matcher_amended (author : String)
    (event : BrainHookEvent) (command : String)
    (settings : ClaudeCodeSettings)
    (hcount : ∀ e ∈ entriesUnder settings (EVENT_MAP event),
      e.hooks.countP (hookKeyMatch author command) ≤ 1)
    (hsome : ∃ e ∈ entriesUnder settings (EVENT_MAP event),
      ∃ r ∈ e.hooks, hookKeyMatch author command r = true) :
    (dao.del author event command settings).isSome = true ∧
    ∀ e ∈ entriesUnder (dao.delApply author event command settings)
        (EVENT_MAP event),
      e.hooks ≠ [] ∧ e.hooks.countP (hookKeyMatch author command) = 0 := by
  have hdc : ((lookupKey (settings.hooks.getD []) (EVENT_MAP event)).getD
      []).any (fun e => e.hooks.any (hookKeyMatch author command)) = true := by
    rw [List.any_eq_true]
    obtain ⟨e, he, r, hr, hm⟩ := hsome
    exact ⟨e, he, List.any_eq_true.mpr ⟨r, hr, hm⟩⟩
  have hdel : dao.del author event command settings
      = some { settings with hooks := some (setKey (settings.hooks.getD [])
          (EVENT_MAP event)
          ((((lookupKey (settings.hooks.getD []) (EVENT_MAP event)).getD
              []).map
            fun e => { e with
              hooks := spliceFirst (hookKeyMatch author command) e.hooks }).filter
            fun e => decide (e.hooks.length > 0))) } := by
    simp only [dao.del, hdc, if_true]
  have happ : dao.delApply author event command settings
      = { settings with hooks := some (setKey (settings.hooks.getD [])
          (EVENT_MAP event)
          ((((lookupKey (settings.hooks.getD []) (EVENT_MAP event)).getD
              []).map
            fun e => { e with
              hooks := spliceFirst (hookKeyMatch author command) e.hooks }).filter
            fun e => decide (e.hooks.length > 0))) } := by
    simp [dao.delApply, hdel]
  refine ⟨by rw [hdel]; rfl, ?_⟩
  intro e he
  rw [happ] at he
  have hent : entriesUnder { settings with hooks := some (setKey
        (settings.hooks.getD []) (EVENT_MAP event)
        ((((lookupKey (settings.hooks.getD []) (EVENT_MAP event)).getD
            []).map
          fun e => { e with
            hooks := spliceFirst (hookKeyMatch author command) e.hooks }).filter
          fun e => decide (e.hooks.length > 0))) } (EVENT_MAP event)
      = (((lookupKey (settings.hooks.getD []) (EVENT_MAP event)).getD
          []).map
        fun e => { e with
          hooks := spliceFirst (hookKeyMatch author command) e.hooks }).filter
        fun e => decide (e.hooks.length > 0) := by
    simp [entriesUnder, lookupKey_setKey_self]
  rw [hent] at he
  obtain ⟨he1, he2⟩ := List.mem_filter.mp he
  refine ⟨List.length_pos.mp (by simpa using he2), ?_⟩
  obtain ⟨e₀, he₀, hmap⟩ := List.mem_map.mp he1
  rw [← hmap]
  simp only [countP_spliceFirst]
  have := hcount e₀ he₀
  omega

/-- C4 witness: with the same `(author, command)` record present once under
each of the `Write`, `Edit`, and `Write|Edit` matchers, delete writes a
document with no matching record and no empty grouping entry. -/
theorem claim4_del_cross_matcher_amended_witness :
    (dao.del "a" .onTool "c"
        ⟨some [("PreToolUse",
          [⟨"Write", [⟨"command", "c", some 5, some "a"⟩], none⟩,
           ⟨"Edit", [⟨"command", "c", some 5, some "a"⟩], none⟩,
           ⟨"Write|Edit", [⟨"command", "c", some 5, some "a"⟩], none⟩])],
          []⟩).isSome = true ∧
    ∀ e ∈ entriesUnder (dao.delApply "a" .onTool "c"
        ⟨some [("PreToolUse",
          [⟨"Write", [⟨"command", "c", some 5, some "a"⟩], none⟩,
           ⟨"Edit", [⟨"command", "c", some 5, some "a"⟩], none⟩,
           ⟨"Write|Edit", [⟨"command", "c", some 5, some "a"⟩], none⟩])],
          []⟩) (EVENT_MAP .onTool),
      e.hooks ≠ [] ∧ e.hooks.countP (hookKeyMatch "a" "c") = 0 :=
  claim4_del_cross_matcher_amended "a" .onTool "c" _ (by decide) (by decide)

/-- C7 (amended): for every document and every query whose supplied string
filter values are nonempty (a supplied empty string is skipped by the JS
truthiness check, see the counterexample), `getAll` returns exactly the
canonical hooks derived from every grouping entry whose supplied fields all
equal the given values (AND semantics), and `getOne` is the first element
of `getAll` filtered by all three fields, or `none` when that set is
empty. -/
theorem claim7_query_semantics_amended (settings : ClaudeCodeSettings)
    (q : dao.GetAllBy) (ha : q.author ≠ some "") (hc : q.command ≠ some "") :
    dao.all (some q) settings
      = (dao.getAllHooks settings).filter (matchesBy q) ∧
    (∀ author event command, author ≠ "" → command ≠ "" →
      dao.one author event command settings
        = (dao.all (some ⟨some author, some event, some command⟩)
            settings).head?) := by
  constructor
  · rcases q with ⟨qa, qe, qc⟩
    cases qa <;> cases qe <;> cases qc <;>
      simp_all [dao.all, filter_filter_comp, Bool.and_assoc] <;>
      first
        | (refine (List.filter_eq_self.mpr ?_).symm
           intro x _
           simp [matchesBy])
        | (apply List.filter_congr
           intro x _
           simp [matchesBy, Bool.and_comm, Bool.and_left_comm, Bool.and_assoc])
  · intro author event command hA hC
    have hone : dao.one author event command settings
        = ((dao.all none settings).filter fun h =>
            decide (h.author = author) && decide (h.event = event) &&
              decide (h.command = command)).head? := by
      simp only [dao.one]
      rw [find?_eq_head?_filter]
    have hall : dao.all (some ⟨some author, some event, some command⟩) settings
        = (dao.all none settings).filter fun h =>
            decide (h.author = author) && decide (h.event = event) &&
              decide (h.command = command) := by
      simp [dao.all, hA, hC, filter_filter_comp, Bool.and_assoc]
      apply List.filter_congr
      intro x _
      simp [Bool.and_comm, Bool.and_left_comm, Bool.and_assoc]
    rw [hone, hall]

/-- C7 witness: on a concrete document, a nonempty author filter returns
exactly the matching hooks, and `getOne` agrees with the head of the fully
filtered `getAll`. -/
theorem claim7_query_semantics_amended_witness :
    dao.all (some ⟨some "x", none, none⟩)
        ⟨some [("SessionStart",
          [⟨"*", [⟨"command", "c", none, some "x"⟩,
                  ⟨"command", "d", none, some "y"⟩], none⟩])], []⟩
      = (dao.getAllHooks
          ⟨some [("SessionStart",
            [⟨"*", [⟨"command", "c", none, some "x"⟩,
                    ⟨"command", "d", none, some "y"⟩], none⟩])], []⟩).filter
          (matchesBy ⟨some "x", none, none⟩) ∧
    (∀ author event command, author ≠ "" → command ≠ "" →
      dao.one author event command
          ⟨some [("SessionStart",
            [⟨"*", [⟨"command", "c", none, some "x"⟩,
                    ⟨"command", "d", none, some "y"⟩], none⟩])], []⟩
        = (dao.all (some ⟨some author, some event, some command⟩)
            ⟨some [("SessionStart",
              [⟨"*", [⟨"command", "c", none, some "x"⟩,
                      ⟨"command", "d", none, some "y"⟩], none⟩])],
              []⟩).head?) :=
  claim7_query_semantics_amended _ ⟨some "x", none, none⟩ (by decide)
    (by decide)

/-- C3 (amended): for every canonical hook whose filter, when present, does
not use the reserved wildcard selector, translating to the vendor format
and back yields exactly one hook equal to the original in author, event,
command, and filter; the timeout is the original normalized to whole
seconds when that is nonzero, and the 30-second fallback when the
normalized timeout is zero (the zero case is omitted from the vendor
record, so the reverse translation cannot restore it; see the
counterexample). -/
theorem claim3_roundtrip_amended (hk : BrainHook)
    (hvalid : ∀ f, hk.filter = some f → f.what ≠ "*") :
    translateHookFromClaudeCode (translateHookToClaudeCode hk).event
        ⟨(translateHookToClaudeCode hk).matcher,
         [(translateHookToClaudeCode hk).hook], none⟩
      = [{ hk with timeout :=
            if timeoutSecondsOf hk = 0 then .seconds 30
            else .seconds (timeoutSecondsOf hk) }] := by
  cases hfil : hk.filter with
  | none =>
    by_cases hts : timeoutSecondsOf hk = 0 <;>
      simp [translateHookToClaudeCode, translateHookFromClaudeCode,
        REVERSE_EVENT_MAP_EVENT_MAP, hts, hfil, matcherOfFilter]
  | some g =>
    have hg := hvalid g hfil
    by_cases hts : timeoutSecondsOf hk = 0 <;>
      simp [translateHookToClaudeCode, translateHookFromClaudeCode,
        REVERSE_EVENT_MAP_EVENT_MAP, hts, hfil, matcherOfFilter, hg]

/-- C3 witness: a concrete hook with a 45-second timeout and `Bash` filter
round-trips to exactly itself. -/
theorem claim3_roundtrip_amended_witness :
    translateHookFromClaudeCode
        (translateHookToClaudeCode ⟨"a", .onTool, "r", .seconds 45, some ⟨"Bash"⟩⟩).event
        ⟨(translateHookToClaudeCode ⟨"a", .onTool, "r", .seconds 45, some ⟨"Bash"⟩⟩).matcher,
         [(translateHookToClaudeCode ⟨"a", .onTool, "r", .seconds 45, some ⟨"Bash"⟩⟩).hook],
         none⟩
      = [{ (⟨"a", .onTool, "r", .seconds 45, some ⟨"Bash"⟩⟩ : BrainHook) with
           timeout :=
            if timeoutSecondsOf ⟨"a", .onTool, "r", .seconds 45, some ⟨"Bash"⟩⟩ = 0
            then .seconds 30
            else .seconds
              (timeoutSecondsOf ⟨"a", .onTool, "r", .seconds 45, some ⟨"Bash"⟩⟩) }] :=
  claim3_roundtrip_amended ⟨"a", .onTool, "r", .seconds 45, some ⟨"Bash"⟩⟩
    (by
      intro f h
      injection h with h2
      subst h2
      decide)
